import Mathlib

/-!
Shallow embedding of the core of `randfromkjv` (src/randfromkjv/main.go):
catalog parsing from the pipe-delimited index, category range slicing
(`sliceRange`), category label derivation, the cumulative-sum random verse
selector, and the stream skip/yield verse extractor.

Go `int` is modelled as `Int` (arbitrary precision; the 64-bit range check
of `strconv.Atoi` is made explicit where the source performs it); Go slices
of books are modelled as `List BookInfo`; the gzip-decoded record stream is
modelled as the list of its newline-delimited lines.
-/

namespace RandFromKJV

/-- Metadata for one embedded book, as in Go `type BookInfo struct`. -/
structure BookInfo where
  ID : Int
  Name : String
  LineCount : Int
  File : String
deriving DecidableEq, Repr

/-- The zero value of `BookInfo` (`var sel BookInfo` before any assignment). -/
def zeroBook : BookInfo := ⟨0, "", 0, ""⟩

/-! ### Index parsing (the `init` book-building loop) -/

/-- Go `strings.Split(s, string(sep))` for a one-character separator:
splits at every occurrence of `sep`; the empty input gives `[[]]`. -/
def splitOnChar (sep : Char) : List Char → List (List Char)
  | [] => [[]]
  | c :: rest =>
    if c = sep then [] :: splitOnChar sep rest
    else
      match splitOnChar sep rest with
      | [] => [[c]]
      | g :: gs => (c :: g) :: gs

/-- Value of a list of decimal digit characters, most significant first,
accumulated as in the `n = n*10 + digit` loop of `strconv`. -/
def digitsToNat (cs : List Char) : Nat :=
  cs.foldl (fun acc c => acc * 10 + (c.toNat - 48)) 0

/-- Go `strconv.Atoi` on a 64-bit platform: optional sign, decimal digits,
error (`none`) on empty input, stray characters or 64-bit range overflow. -/
def atoi (s : String) : Option Int :=
  let cs := s.toList
  let signed : Int × List Char :=
    match cs with
    | '+' :: rest => (1, rest)
    | '-' :: rest => (-1, rest)
    | _ => (1, cs)
  if signed.2.isEmpty then none
  else if signed.2.all (fun c => c.isDigit) then
    let n : Int := signed.1 * (digitsToNat signed.2 : Int)
    if -(2 ^ 63) ≤ n ∧ n < 2 ^ 63 then some n else none
  else none

/-- One record of the index body parsed into a `BookInfo`: three
pipe-delimited fields with integer id and line count
(`id|displayName|lineCount`), `File` derived as `fmt.Sprintf("%d.txt.gz", id)`. -/
def parseIndexLine (line : String) : Option BookInfo :=
  match (splitOnChar '|' line.toList).map (fun g => String.mk g) with
  | [p0, p1, p2] =>
    match atoi p0, atoi p2 with
    | some id, some cnt => some ⟨id, p1, cnt, toString id ++ ".txt.gz"⟩
    | _, _ => none
  | _ => none

/-- The `init` scanning loop that builds `books[]`: each line is split on
`"|"`; a line without exactly three fields, or whose first or third field
fails `strconv.Atoi`, is skipped (`continue`); well-formed lines are
appended in input order. -/
def loadBooks : List String → List BookInfo
  | [] => []
  | line :: rest =>
    match (splitOnChar '|' line.toList).map (fun g => String.mk g) with
    | [p0, p1, p2] =>
      match atoi p0 with
      | none => loadBooks rest
      | some id =>
        match atoi p2 with
        | none => loadBooks rest
        | some cnt => ⟨id, p1, cnt, toString id ++ ".txt.gz"⟩ :: loadBooks rest
    | _ => loadBooks rest

/-! ### Range resolution (`sliceRange`) -/

/-- The scanning loop of `sliceRange`: indices `start` and `e` begin at `-1`;
at index `i`, `start` is set to `i` the first time `b.ID >= lowID`, `e` is
set to `i` whenever `b.ID <= highID`, and the loop breaks after processing
the first book with `b.ID > highID`. -/
def srLoop (lowID highID : Int) : List BookInfo → Nat → Int → Int → Int × Int
  | [], _, start, e => (start, e)
  | b :: rest, i, start, e =>
    let start1 := if start < 0 ∧ lowID ≤ b.ID then (i : Int) else start
    let e1 := if b.ID ≤ highID then (i : Int) else e
    if highID < b.ID then (start1, e1)
    else srLoop lowID highID rest (i + 1) start1 e1

/-- Go `sliceRange(lowID, highID)`: runs the scan over `books` and returns
the subslice `books[start : end+1]` when `start >= 0 && end >= start`,
otherwise `nil` (modelled as `[]`). -/
def sliceRange (lowID highID : Int) (books : List BookInfo) : List BookInfo :=
  let se := srLoop lowID highID books 0 (-1) (-1)
  if 0 ≤ se.1 ∧ se.1 ≤ se.2 then (books.take (se.2.toNat + 1)).drop se.1.toNat
  else []

/-- The category label computation of `init`: empty slice gives `""`;
otherwise the branch is on `LowID == HighID` (not on the slice length):
equal bounds give `slice[0].Name`, unequal bounds give
`slice[0].Name + " — " + slice[len-1].Name`. -/
def catLabelOf (lowID highID : Int) (books : List BookInfo) : String :=
  let slice := sliceRange lowID highID books
  match slice with
  | [] => ""
  | b :: rest =>
    if lowID = highID then b.Name
    else b.Name ++ " — " ++ ((b :: rest).getLastD zeroBook).Name

/-! ### Selection (the cumulative-sum walk in `main`) -/

/-- `total`: the line-count accumulation loop over the pool. -/
def totalLines (pool : List BookInfo) : Int :=
  pool.foldl (fun acc b => acc + b.LineCount) 0

/-- The book-locating walk: starting from running sum `cum`, the first book
with `choice <= cum + b.LineCount` is selected with offset `choice - cum`;
`none` models the fall-through in which the loop exhausts the pool and the
zero values of `sel` and `offset` remain. -/
def locateOpt (choice : Int) : List BookInfo → Int → Option (BookInfo × Int)
  | [], _ => none
  | b :: rest, cum =>
    if choice ≤ cum + b.LineCount then some (b, choice - cum)
    else locateOpt choice rest (cum + b.LineCount)

/-- The same walk, additionally reporting the selected book's position in
the pool (the Go loop visits positions `i, i+1, …` of the slice). -/
def locateIdx (choice : Int) : List BookInfo → Int → Nat → Option (Nat × Int)
  | [], _, _ => none
  | b :: rest, cum, i =>
    if choice ≤ cum + b.LineCount then some (i, choice - cum)
    else locateIdx choice rest (cum + b.LineCount) (i + 1)

/-- Outcomes of the selection step: the `total == 0` check prints the
"no verses" message and exits (`emptyPool`); a negative total would make
`rand.Intn` panic (`panicNonPositive`). -/
inductive SelectError where
  | emptyPool
  | panicNonPositive
deriving DecidableEq, Repr

/-- The selection step of `main`: compute `total`; if it is `0`, fail with
the "no verses" outcome; otherwise `choice := r + 1` where `r` models the
draw `rng.Intn(total)`, and the walk locates the book and offset (zero
values on fall-through, as in the source). -/
def select (pool : List BookInfo) (r : Int) : Except SelectError (BookInfo × Int) :=
  let total := totalLines pool
  if total = 0 then .error .emptyPool
  else if total < 0 then .error .panicNonPositive
  else .ok ((locateOpt (r + 1) pool 0).getD (zeroBook, 0))

/-! ### Verse extraction (skip and yield loops in `main`) -/

/-- The skip loop `for i := 1; i < offset; i++ { if !scanner.Scan() { break } }`:
attempts `n` scans, stopping early when the stream ends. -/
def skipLines : Nat → List String → List String
  | 0, ls => ls
  | _ + 1, [] => []
  | n + 1, _ :: ls => skipLines n ls

/-- Splits a character list at the first space character, returning the
characters before it and after it, or `none` when there is no space. -/
def splitFirstSpace : List Char → Option (List Char × List Char)
  | [] => none
  | c :: cs =>
    if c = ' ' then some ([], cs)
    else (splitFirstSpace cs).map (fun p => (c :: p.1, p.2))

/-- Go `strings.SplitN(line, " ", 2)`: two pieces around the first space
when one exists, otherwise the single-element list `[line]`. -/
def splitN2 (line : String) : List String :=
  match splitFirstSpace line.toList with
  | some (a, b) => [String.mk a, String.mk b]
  | none => [line]

/-- The record yielded for one stream line: when `SplitN` gives two parts
they are the verse-number token and the remainder; otherwise the whole
line is printed as-is, i.e. the record has an empty token and the whole
line as text. -/
def splitVerse (line : String) : String × String :=
  match splitN2 line with
  | [a, b] => (a, b)
  | _ => ("", line)

/-- The extraction of `main` on a decoded stream `ls` for a 1-based local
offset: the skip loop attempts `offset - 1` scans, then the yield loop
emits one record per remaining line. -/
def extractRecords (offset : Int) (ls : List String) : List (String × String) :=
  (skipLines (offset - 1).toNat ls).map splitVerse

/-- The record splitting as the specification words it: the line is split at
the first whitespace boundary (any whitespace character); with no whitespace
boundary the record is `("", line)`. Stated from the spec for comparison
with `splitVerse`, which follows the source. -/
def splitFirstWhitespace : List Char → Option (List Char × List Char)
  | [] => none
  | c :: cs =>
    if c.isWhitespace then some ([], cs)
    else (splitFirstWhitespace cs).map (fun p => (c :: p.1, p.2))

/-- Spec-worded counterpart of `splitVerse`: split on the first whitespace
boundary, or yield the whole line with an empty token. -/
def specSplitVerse (line : String) : String × String :=
  match splitFirstWhitespace line.toList with
  | some (a, b) => (String.mk a, String.mk b)
  | none => ("", line)

/-- Sum of the line counts of the first `j` pool entries: the value of the
running sum `cum` when the locating walk reaches position `j`. -/
def prefixLines (pool : List BookInfo) (j : Nat) : Int :=
  ((pool.take j).map BookInfo.LineCount).sum

/-- The `b.ID <= highID` test of the `sliceRange` scan, as a Bool predicate. -/
def pLE (highID : Int) (b : BookInfo) : Bool := decide (b.ID ≤ highID)

/-- The `b.ID >= lowID` test of the `sliceRange` scan, as a Bool predicate. -/
def pGE (lowID : Int) (b : BookInfo) : Bool := decide (lowID ≤ b.ID)

/-- Number of books scanned before the break test fires: the length of the
maximal prefix with `id ≤ highID`. -/
def kOf (highID : Int) (l : List BookInfo) : Nat :=
  (l.takeWhile (pLE highID)).length

/-- The books the `sliceRange` loop actually visits: the prefix with
`id ≤ highID` plus the breaking book when one exists. -/
def scannedOf (highID : Int) (l : List BookInfo) : List BookInfo :=
  l.take (kOf highID l + 1)

/-- Position of the first visited book with `id ≥ lowID` (equals the number
of visited books when none qualifies). -/
def mOf (lowID highID : Int) (l : List BookInfo) : Nat :=
  ((scannedOf highID l).takeWhile (fun b => !pGE lowID b)).length

/-! ### Lemmas about the extraction skip and split -/

theorem skipLines_eq_drop (n : Nat) : ∀ ls : List String, skipLines n ls = ls.drop n := by
  induction n with
  | zero => intro ls; rfl
  | succ m ih =>
    intro ls
    cases ls with
    | nil => simp [skipLines]
    | cons a t => simpa [skipLines] using ih t

theorem splitFirstSpace_eq_none : ∀ cs : List Char, splitFirstSpace cs = none ↔ ' ' ∉ cs := by
  intro cs
  induction cs with
  | nil => simp [splitFirstSpace]
  | cons c t ih =>
    by_cases hc : c = ' '
    · subst hc; simp [splitFirstSpace]
    · simp only [splitFirstSpace, if_neg hc, Option.map_eq_none', List.mem_cons]
      rw [ih]
      constructor
      · intro h hmem
        rcases hmem with h1 | h2
        · exact hc h1.symm
        · exact h h2
      · intro h hmem
        exact h (Or.inr hmem)

theorem splitFirstSpace_eq_some :
    ∀ cs a b, splitFirstSpace cs = some (a, b) → cs = a ++ ' ' :: b ∧ ' ' ∉ a := by
  intro cs
  induction cs with
  | nil => intro a b h; simp [splitFirstSpace] at h
  | cons c t ih =>
    intro a b h
    by_cases hc : c = ' '
    · subst hc
      simp only [splitFirstSpace, if_pos rfl, Option.some_inj, Prod.mk.injEq] at h
      rcases h with ⟨rfl, rfl⟩
      exact ⟨rfl, by simp⟩
    · simp only [splitFirstSpace, if_neg hc] at h
      rcases hrec : splitFirstSpace t with _ | ⟨a1, b1⟩
      · rw [hrec] at h; simp at h
      · rw [hrec] at h
        simp only [Option.map_some', Option.some_inj, Prod.mk.injEq] at h
        rcases ih a1 b1 hrec with ⟨ht, hnot⟩
        rcases h with ⟨rfl, rfl⟩
        constructor
        · simp [ht]
        · intro hmem
          rcases List.mem_cons.mp hmem with h1 | h2
          · exact hc h1.symm
          · exact hnot h2

/-! ### Lemmas about catalog loading -/

theorem loadBooks_cons (line : String) (rest : List String) :
    loadBooks (line :: rest) =
      match parseIndexLine line with
      | some b => b :: loadBooks rest
      | none => loadBooks rest := by
  simp only [loadBooks, parseIndexLine]
  rcases (splitOnChar '|' line.toList).map (fun g => String.mk g) with
    _ | ⟨p0, _ | ⟨p1, _ | ⟨p2, _ | ⟨p3, t⟩⟩⟩⟩
  · rfl
  · rfl
  · rfl
  · dsimp only
    rcases atoi p0 with _ | id
    · rcases atoi p2 with _ | cnt <;> rfl
    · rcases atoi p2 with _ | cnt <;> rfl
  · rfl

theorem loadBooks_eq_filterMap (lines : List String) :
    loadBooks lines = lines.filterMap parseIndexLine := by
  induction lines with
  | nil => rfl
  | cons line rest ih =>
    rw [loadBooks_cons, List.filterMap_cons]
    rcases parseIndexLine line with _ | b <;> simp [ih]

/-! ### Lemmas about the selector -/

theorem foldl_add_lineCount (pool : List BookInfo) :
    ∀ init : Int, pool.foldl (fun acc b => acc + b.LineCount) init =
      init + (pool.map BookInfo.LineCount).sum := by
  induction pool with
  | nil => intro init; simp
  | cons b t ih =>
    intro init
    simp only [List.foldl_cons, List.map_cons, List.sum_cons, ih]
    ring

theorem totalLines_eq_sum (pool : List BookInfo) :
    totalLines pool = (pool.map BookInfo.LineCount).sum := by
  simpa using foldl_add_lineCount pool 0

theorem sum_lineCount_nonneg (pool : List BookInfo)
    (h : ∀ b ∈ pool, 0 ≤ b.LineCount) : 0 ≤ (pool.map BookInfo.LineCount).sum := by
  apply List.sum_nonneg
  intro x hx
  rcases List.mem_map.mp hx with ⟨b, hb, rfl⟩
  exact h b hb

theorem prefixLines_zero (pool : List BookInfo) : prefixLines pool 0 = 0 := rfl

theorem prefixLines_succ_cons (b : BookInfo) (t : List BookInfo) (j : Nat) :
    prefixLines (b :: t) (j + 1) = b.LineCount + prefixLines t j := by
  simp [prefixLines]

theorem prefixLines_nonneg (pool : List BookInfo) (j : Nat)
    (h : ∀ b ∈ pool, 0 ≤ b.LineCount) : 0 ≤ prefixLines pool j := by
  apply sum_lineCount_nonneg
  intro b hb
  exact h b (List.take_subset j pool hb)

theorem prefixLines_succ (pool : List BookInfo) (j : Nat) (b : BookInfo)
    (hj : pool[j]? = some b) :
    prefixLines pool (j + 1) = prefixLines pool j + b.LineCount := by
  unfold prefixLines
  rw [List.take_succ, hj]
  simp

theorem prefixLines_le_sum (pool : List BookInfo) (j : Nat)
    (h : ∀ x ∈ pool, 0 ≤ x.LineCount) :
    prefixLines pool j ≤ (pool.map BookInfo.LineCount).sum := by
  have hsplit : (pool.map BookInfo.LineCount).sum =
      prefixLines pool j + ((pool.drop j).map BookInfo.LineCount).sum := by
    unfold prefixLines
    rw [← List.sum_append, ← List.map_append, List.take_append_drop]
  have hpos : 0 ≤ ((pool.drop j).map BookInfo.LineCount).sum :=
    sum_lineCount_nonneg _ (fun x hx => h x (List.drop_subset j pool hx))
  omega

theorem locateOpt_mem (choice : Int) :
    ∀ (pool : List BookInfo) (cum : Int),
      (∀ b ∈ pool, 0 ≤ b.LineCount) → cum < choice →
      choice ≤ cum + (pool.map BookInfo.LineCount).sum →
      ∃ b k, locateOpt choice pool cum = some (b, k) ∧ b ∈ pool ∧
        1 ≤ k ∧ k ≤ b.LineCount := by
  intro pool
  induction pool with
  | nil =>
    intro cum _ h1 h2
    simp only [List.map_nil, List.sum_nil, add_zero] at h2
    omega
  | cons b t ih =>
    intro cum h0 h1 h2
    by_cases hc : choice ≤ cum + b.LineCount
    · refine ⟨b, choice - cum, ?_, List.mem_cons_self b t, by omega, by omega⟩
      simp [locateOpt, hc]
    · push_neg at hc
      have h2t : choice ≤ (cum + b.LineCount) + (t.map BookInfo.LineCount).sum := by
        simp only [List.map_cons, List.sum_cons] at h2
        omega
      obtain ⟨b2, k, heq, hmem, hk1, hk2⟩ :=
        ih (cum + b.LineCount) (fun x hx => h0 x (List.mem_cons_of_mem b hx)) hc h2t
      refine ⟨b2, k, ?_, List.mem_cons_of_mem b hmem, hk1, hk2⟩
      simpa [locateOpt, not_le.mpr hc] using heq

theorem locateIdx_mem (choice : Int) :
    ∀ (pool : List BookInfo) (cum : Int) (i : Nat),
      (∀ b ∈ pool, 0 ≤ b.LineCount) → cum < choice →
      choice ≤ cum + (pool.map BookInfo.LineCount).sum →
      ∃ j b k, pool[j]? = some b ∧ locateIdx choice pool cum i = some (i + j, k) ∧
        1 ≤ k ∧ k ≤ b.LineCount ∧ cum + prefixLines pool j + k = choice := by
  intro pool
  induction pool with
  | nil =>
    intro cum i _ h1 h2
    simp only [List.map_nil, List.sum_nil, add_zero] at h2
    omega
  | cons b t ih =>
    intro cum i h0 h1 h2
    by_cases hc : choice ≤ cum + b.LineCount
    · refine ⟨0, b, choice - cum, by simp, ?_, by omega, by omega, ?_⟩
      · simp [locateIdx, hc]
      · rw [prefixLines_zero]
        omega
    · push_neg at hc
      have h2t : choice ≤ (cum + b.LineCount) + (t.map BookInfo.LineCount).sum := by
        simp only [List.map_cons, List.sum_cons] at h2
        omega
      obtain ⟨j, b2, k, hj, heq, hk1, hk2, hsum⟩ :=
        ih (cum + b.LineCount) (i + 1) (fun x hx => h0 x (List.mem_cons_of_mem b hx)) hc h2t
      refine ⟨j + 1, b2, k, by simpa using hj, ?_, hk1, hk2, ?_⟩
      · have hidx : i + 1 + j = i + (j + 1) := by omega
        rw [hidx] at heq
        simpa [locateIdx, not_le.mpr hc] using heq
      · rw [prefixLines_succ_cons]
        omega

theorem locateIdx_inv :
    ∀ (pool : List BookInfo) (cum : Int) (i j : Nat) (b : BookInfo) (k : Int),
      (∀ x ∈ pool, 0 ≤ x.LineCount) → pool[j]? = some b → 1 ≤ k → k ≤ b.LineCount →
      locateIdx (cum + prefixLines pool j + k) pool cum i = some (i + j, k) := by
  intro pool
  induction pool with
  | nil =>
    intro cum i j b k _ hj
    simp at hj
  | cons c t ih =>
    intro cum i j b k h0 hj hk1 hk2
    cases j with
    | zero =>
      have hcb : c = b := by simpa using hj
      subst hcb
      rw [prefixLines_zero]
      have hcond : cum + 0 + k ≤ cum + c.LineCount := by omega
      simp only [locateIdx, if_pos hcond]
      have h1 : cum + 0 + k - cum = k := by omega
      rw [h1]
      simp
    | succ j2 =>
      have hj2 : t[j2]? = some b := by simpa using hj
      have hpre : 0 ≤ prefixLines t j2 :=
        prefixLines_nonneg t j2 (fun x hx => h0 x (List.mem_cons_of_mem c hx))
      have hstep : prefixLines (c :: t) (j2 + 1) = c.LineCount + prefixLines t j2 :=
        prefixLines_succ_cons c t j2
      have harg : cum + prefixLines (c :: t) (j2 + 1) + k =
          cum + c.LineCount + prefixLines t j2 + k := by
        rw [hstep]
        ring
      have hrec := ih (cum + c.LineCount) (i + 1) j2 b k
        (fun x hx => h0 x (List.mem_cons_of_mem c hx)) hj2 hk1 hk2
      have hidx : i + 1 + j2 = i + (j2 + 1) := by omega
      rw [hidx] at hrec
      have hcond2 : ¬ (cum + c.LineCount + prefixLines t j2 + k ≤ cum + c.LineCount) := by
        omega
      rw [harg]
      simp only [locateIdx, if_neg hcond2]
      exact hrec

theorem prefix_add_k_bounds (pool : List BookInfo) (j : Nat) (b : BookInfo) (k : Int)
    (h0 : ∀ x ∈ pool, 0 ≤ x.LineCount) (hj : pool[j]? = some b)
    (hk1 : 1 ≤ k) (hk2 : k ≤ b.LineCount) :
    1 ≤ prefixLines pool j + k ∧ prefixLines pool j + k ≤ totalLines pool := by
  have hpre := prefixLines_nonneg pool j h0
  have hsucc := prefixLines_succ pool j b hj
  have hle := prefixLines_le_sum pool (j + 1) h0
  rw [totalLines_eq_sum]
  omega

/-! ### Lemmas about the sliceRange scan -/

theorem kOf_cons_pos {b : BookInfo} {highID : Int} (t : List BookInfo) (h : b.ID ≤ highID) :
    kOf highID (b :: t) = kOf highID t + 1 := by
  simp [kOf, List.takeWhile_cons, pLE, h]

theorem kOf_cons_neg {b : BookInfo} {highID : Int} (t : List BookInfo) (h : ¬ b.ID ≤ highID) :
    kOf highID (b :: t) = 0 := by
  simp [kOf, List.takeWhile_cons, pLE, h]

theorem scannedOf_cons_pos {b : BookInfo} {highID : Int} (t : List BookInfo) (h : b.ID ≤ highID) :
    scannedOf highID (b :: t) = b :: scannedOf highID t := by
  simp [scannedOf, kOf_cons_pos t h, List.take_succ_cons]

theorem scannedOf_cons_neg {b : BookInfo} {highID : Int} (t : List BookInfo) (h : ¬ b.ID ≤ highID) :
    scannedOf highID (b :: t) = [b] := by
  simp [scannedOf, kOf_cons_neg t h, List.take_succ_cons]

theorem mOf_cons_pos_q {b : BookInfo} {lowID highID : Int} (t : List BookInfo)
    (hP : b.ID ≤ highID) (hQ : lowID ≤ b.ID) :
    mOf lowID highID (b :: t) = 0 := by
  simp [mOf, scannedOf_cons_pos t hP, List.takeWhile_cons, pGE, hQ]

theorem mOf_cons_pos_nq {b : BookInfo} {lowID highID : Int} (t : List BookInfo)
    (hP : b.ID ≤ highID) (hQ : ¬ lowID ≤ b.ID) :
    mOf lowID highID (b :: t) = mOf lowID highID t + 1 := by
  simp [mOf, scannedOf_cons_pos t hP, List.takeWhile_cons, pGE, hQ]

theorem mOf_cons_neg_q {b : BookInfo} {lowID highID : Int} (t : List BookInfo)
    (hP : ¬ b.ID ≤ highID) (hQ : lowID ≤ b.ID) :
    mOf lowID highID (b :: t) = 0 := by
  simp [mOf, scannedOf_cons_neg t hP, List.takeWhile_cons, pGE, hQ]

theorem mOf_cons_neg_nq {b : BookInfo} {lowID highID : Int} (t : List BookInfo)
    (hP : ¬ b.ID ≤ highID) (hQ : ¬ lowID ≤ b.ID) :
    mOf lowID highID (b :: t) = 1 := by
  simp [mOf, scannedOf_cons_neg t hP, List.takeWhile_cons, pGE, hQ]

theorem srLoop_cons_break {b : BookInfo} {lowID highID : Int} (t : List BookInfo)
    (i : Nat) (start e : Int) (h : highID < b.ID) :
    srLoop lowID highID (b :: t) i start e =
      ((if start < 0 ∧ lowID ≤ b.ID then (i : Int) else start),
       (if b.ID ≤ highID then (i : Int) else e)) := by
  simp [srLoop, h]

theorem srLoop_cons_cont {b : BookInfo} {lowID highID : Int} (t : List BookInfo)
    (i : Nat) (start e : Int) (h : ¬ highID < b.ID) :
    srLoop lowID highID (b :: t) i start e =
      srLoop lowID highID t (i + 1)
        (if start < 0 ∧ lowID ≤ b.ID then (i : Int) else start)
        (if b.ID ≤ highID then (i : Int) else e) := by
  simp [srLoop, h]

theorem srLoop_spec (lowID highID : Int) :
    ∀ (l : List BookInfo) (i : Nat) (start e : Int),
      srLoop lowID highID l i start e =
        ((if 0 ≤ start then start
          else if mOf lowID highID l < (scannedOf highID l).length
            then (i : Int) + mOf lowID highID l
            else start),
         (if kOf highID l = 0 then e else (i : Int) + kOf highID l - 1)) := by
  intro l
  induction l with
  | nil =>
    intro i start e
    simp [srLoop, kOf, scannedOf, mOf]
  | cons b t ih =>
    intro i start e
    by_cases hP : b.ID ≤ highID
    · rw [srLoop_cons_cont t i start e (not_lt.mpr hP), ih,
        kOf_cons_pos t hP, scannedOf_cons_pos t hP, if_pos hP]
      by_cases hQ : lowID ≤ b.ID
      · rw [mOf_cons_pos_q t hP hQ]
        simp only [hQ, and_true, Prod.mk.injEq, List.length_cons]
        constructor
        · by_cases h0 : start < 0
          · rw [if_pos h0, if_neg (by omega : ¬ (0 : Int) ≤ start),
              if_pos (by omega : (0 : Int) ≤ (i : Int)),
              if_pos (by omega : 0 < (scannedOf highID t).length + 1)]
            push_cast
            omega
          · rw [if_neg h0, if_pos (by omega : (0 : Int) ≤ start),
              if_pos (by omega : (0 : Int) ≤ start)]
        · rw [if_neg (by omega : ¬ kOf highID t + 1 = 0)]
          split_ifs <;> push_cast <;> omega
      · rw [mOf_cons_pos_nq t hP hQ]
        simp only [hQ, and_false, if_false, Prod.mk.injEq, List.length_cons]
        constructor
        · by_cases h0 : (0 : Int) ≤ start
          · rw [if_pos h0, if_pos h0]
          · rw [if_neg h0, if_neg h0]
            split_ifs <;> push_cast <;> omega
        · rw [if_neg (by omega : ¬ kOf highID t + 1 = 0)]
          split_ifs <;> push_cast <;> omega
    · rw [srLoop_cons_break t i start e (not_le.mp hP),
        kOf_cons_neg t hP, scannedOf_cons_neg t hP, if_neg hP]
      by_cases hQ : lowID ≤ b.ID
      · rw [mOf_cons_neg_q t hP hQ]
        simp only [hQ, and_true, Prod.mk.injEq, List.length_cons, List.length_nil]
        refine ⟨?_, rfl⟩
        split_ifs <;> push_cast <;> omega
      · rw [mOf_cons_neg_nq t hP hQ]
        simp only [hQ, and_false, if_false, Prod.mk.injEq, List.length_cons,
          List.length_nil]
        refine ⟨?_, rfl⟩
        split_ifs <;> push_cast <;> omega

theorem takeWhile_eq_take_kOf (highID : Int) (l : List BookInfo) :
    l.takeWhile (pLE highID) = l.take (kOf highID l) :=
  List.prefix_iff_eq_take.mp (List.takeWhile_prefix _)

theorem kOf_le_length (highID : Int) (l : List BookInfo) :
    kOf highID l ≤ l.length :=
  List.Sublist.length_le (List.takeWhile_sublist _)

theorem mOf_eq_min (lowID highID : Int) (l : List BookInfo) :
    mOf lowID highID l =
      min (kOf highID l + 1) ((l.takeWhile (fun b => !pGE lowID b)).length) := by
  unfold mOf scannedOf
  rw [← List.take_takeWhile, List.length_take]

theorem scannedOf_length (highID : Int) (l : List BookInfo) :
    (scannedOf highID l).length = min (kOf highID l + 1) l.length := by
  unfold scannedOf
  rw [List.length_take]

theorem filter_le_eq_takeWhile (highID : Int) :
    ∀ books : List BookInfo, List.Pairwise (fun a b => a.ID ≤ b.ID) books →
      books.filter (pLE highID) = books.takeWhile (pLE highID) := by
  intro books
  induction books with
  | nil => intro _; rfl
  | cons b t ih =>
    intro hp
    rcases List.pairwise_cons.mp hp with ⟨hhead, htail⟩
    by_cases hb : b.ID ≤ highID
    · simp [List.filter_cons, List.takeWhile_cons, pLE, hb, ih htail]
    · have hnil : t.filter (pLE highID) = [] := by
        rw [List.filter_eq_nil_iff]
        intro x hx
        have hbx := hhead x hx
        simp only [pLE, decide_eq_true_eq]
        omega
      simp [List.filter_cons, List.takeWhile_cons, pLE, hb, hnil]

theorem filter_ge_eq_drop (lowID : Int) :
    ∀ t : List BookInfo, List.Pairwise (fun a b => a.ID ≤ b.ID) t →
      t.filter (pGE lowID) =
        t.drop ((t.takeWhile (fun b => !pGE lowID b)).length) := by
  intro t
  induction t with
  | nil => intro _; rfl
  | cons c r ih =>
    intro hp
    rcases List.pairwise_cons.mp hp with ⟨hhead, htail⟩
    by_cases hc : lowID ≤ c.ID
    · have hall : r.filter (pGE lowID) = r := by
        rw [List.filter_eq_self]
        intro x hx
        have hcx := hhead x hx
        simp only [pGE, decide_eq_true_eq]
        omega
      simp [List.filter_cons, List.takeWhile_cons, pGE, hc, hall]
    · simp [List.filter_cons, List.takeWhile_cons, pGE, hc, ih htail]

theorem sliceRange_closed (lowID highID : Int) (books : List BookInfo) :
    sliceRange lowID highID books =
      if mOf lowID highID books < (scannedOf highID books).length ∧
          mOf lowID highID books + 1 ≤ kOf highID books
        then (books.take (kOf highID books)).drop (mOf lowID highID books)
        else [] := by
  simp only [sliceRange, srLoop_spec]
  rw [if_neg (by norm_num : ¬ (0 : Int) ≤ -1)]
  by_cases h1 : mOf lowID highID books < (scannedOf highID books).length
  · rw [if_pos h1]
    by_cases hk0 : kOf highID books = 0
    · rw [if_pos hk0]
      rw [if_neg (by
        simp only [not_and]
        intro _
        omega)]
      rw [if_neg (by omega)]
    · rw [if_neg hk0]
      by_cases h2 : mOf lowID highID books + 1 ≤ kOf highID books
      · rw [if_pos (by constructor <;> push_cast <;> omega)]
        rw [if_pos ⟨h1, h2⟩]
        congr 1
        · omega
        · congr 1
          omega
      · rw [if_neg (by
          simp only [not_and]
          intro _
          push_cast
          omega)]
        rw [if_neg (by omega)]
  · rw [if_neg h1]
    rw [if_neg (by norm_num)]
    rw [if_neg (by omega)]

/-! ### Claim theorems -/

/-- **C5.** For every decoded book content stream and every `localOffset ≥ 1`,
extraction skips exactly `localOffset − 1` records before yielding (the
yielded records are those of the stream after dropping `localOffset − 1`
lines); and when the stream holds fewer than `localOffset − 1` records the
skip phase stops early — without error, since the extractor is a total
function — and yields zero records. -/
theorem extractRecords_skip_correct (ls : List String) (offset : Int) (h : 1 ≤ offset) :
    extractRecords offset ls = (ls.drop (offset - 1).toNat).map splitVerse ∧
    ((ls.length : Int) < offset - 1 → extractRecords offset ls = []) := by
  have hdrop : extractRecords offset ls = (ls.drop (offset - 1).toNat).map splitVerse := by
    unfold extractRecords
    rw [skipLines_eq_drop]
  refine ⟨hdrop, fun hlt => ?_⟩
  rw [hdrop, List.drop_eq_nil_of_le (by omega), List.map_nil]

/-- Witness for C5: skipping past the end of a two-line stream with
`localOffset = 5` yields zero records. -/
theorem extractRecords_skip_correct_witness :
    extractRecords 5 ["1:1 first", "1:2 second"] = [] :=
  (extractRecords_skip_correct ["1:1 first", "1:2 second"] 5 (by decide)).2 (by decide)

/-- **C8 counterexample.** The claim says records are split on the first
whitespace boundary; on a line whose first whitespace is a tab, the source
(which splits on the first space character only) yields the whole line with
an empty token, while the claimed rule would split at the tab. -/
theorem splitVerse_whitespace_counterexample :
    splitVerse "a\tb" = ("", "a\tb") ∧ specSplitVerse "a\tb" = ("a", "b") ∧
    splitVerse "a\tb" ≠ specSplitVerse "a\tb" := by decide

/-- **C8 amended.** For every record yielded by extraction, the record is
the line split on the first *space character* into token and remainder
(the token holds no space); for every line containing no space, the yielded
record is `("", wholeLine)`. -/
theorem splitVerse_first_space (line : String) :
    (' ' ∈ line.toList →
      ∃ a b, splitVerse line = (String.mk a, String.mk b) ∧
        line.toList = a ++ ' ' :: b ∧ ' ' ∉ a) ∧
    (' ' ∉ line.toList → splitVerse line = ("", line)) := by
  constructor
  · intro hmem
    rcases hs : splitFirstSpace line.toList with _ | ⟨a, b⟩
    · exact absurd hmem ((splitFirstSpace_eq_none _).1 hs)
    · rcases splitFirstSpace_eq_some _ _ _ hs with ⟨ht, hnot⟩
      have hs2 : splitFirstSpace line.data = some (a, b) := hs
      exact ⟨a, b, by simp [splitVerse, splitN2, hs2], ht, hnot⟩
  · intro hnot
    have hs : splitFirstSpace line.toList = none := (splitFirstSpace_eq_none _).2 hnot
    have hs2 : splitFirstSpace line.data = none := hs
    simp [splitVerse, splitN2, hs2]

/-- Witness for C8 amended: a verse line with spaces splits at its first
space into token and remainder. -/
theorem splitVerse_first_space_witness :
    ∃ a b, splitVerse "1:1 In the beginning" = (String.mk a, String.mk b) ∧
      ("1:1 In the beginning").toList = a ++ ' ' :: b ∧ ' ' ∉ a :=
  (splitVerse_first_space "1:1 In the beginning").1 (by decide)

/-- **C9.** Catalog load is total and lenient: the catalog is exactly the
well-formed records of the input, parsed, in input order (`filterMap`), and
removing any malformed record from the input leaves the load unchanged — a
malformed record is never fatal. -/
theorem loadBooks_lenient (lines : List String) :
    loadBooks lines = lines.filterMap parseIndexLine ∧
    (∀ pre line post, lines = pre ++ line :: post → parseIndexLine line = none →
      loadBooks lines = loadBooks (pre ++ post)) := by
  refine ⟨loadBooks_eq_filterMap lines, fun pre line post hsplit hbad => ?_⟩
  subst hsplit
  rw [loadBooks_eq_filterMap, loadBooks_eq_filterMap, List.filterMap_append,
    List.filterMap_append, List.filterMap_cons_none hbad]

/-- Witness for C9: deleting a malformed middle record does not change the
loaded catalog. -/
theorem loadBooks_lenient_witness :
    loadBooks ["10|Genesis|1533", "oops", "20|Exodus|1213"] =
      loadBooks (["10|Genesis|1533"] ++ ["20|Exodus|1213"]) :=
  (loadBooks_lenient ["10|Genesis|1533", "oops", "20|Exodus|1213"]).2
    ["10|Genesis|1533"] "oops" ["20|Exodus|1213"] rfl (by decide)

/-- **C3.** The selection step fails with the "no verses" outcome
(`EmptyPoolError`) exactly when the pool's total line count is `0`; when
the total is positive a selection is produced and the error branch is not
taken. -/
theorem select_emptyPool_iff (pool : List BookInfo) (r : Int) :
    (select pool r = .error .emptyPool ↔ totalLines pool = 0) ∧
    (1 ≤ totalLines pool → ∃ b off, select pool r = .ok (b, off)) := by
  constructor
  · constructor
    · intro h
      by_contra hne
      simp only [select] at h
      rw [if_neg hne] at h
      split at h <;> simp_all
    · intro h
      simp [select, h]
  · intro h
    have h0 : ¬ totalLines pool = 0 := by omega
    have h1 : ¬ totalLines pool < 0 := by omega
    refine ⟨((locateOpt (r + 1) pool 0).getD (zeroBook, 0)).1,
            ((locateOpt (r + 1) pool 0).getD (zeroBook, 0)).2, ?_⟩
    simp [select, h0, h1]

/-- **C2.** For every catalog whose book IDs are ascending, `sliceRange`
equals the naive filter of the whole catalog by the inclusive interval
`[lowID, highID]` (so the early-terminating scan is a correct refinement of
the filter, preserving catalog order), and it returns the empty sequence —
not an error — whenever no book's ID falls in the interval, including when
`lowID > highID`. -/
theorem sliceRange_eq_filter (books : List BookInfo)
    (hs : List.Pairwise (fun a b => a.ID ≤ b.ID) books) (lowID highID : Int) :
    sliceRange lowID highID books =
      books.filter (fun b => decide (lowID ≤ b.ID) && decide (b.ID ≤ highID)) ∧
    ((∀ b ∈ books, ¬ (lowID ≤ b.ID ∧ b.ID ≤ highID)) →
      sliceRange lowID highID books = []) := by
  have hfilter : books.filter (fun b => decide (lowID ≤ b.ID) && decide (b.ID ≤ highID)) =
      (books.take (kOf highID books)).drop
        (min (kOf highID books) ((books.takeWhile (fun b => !pGE lowID b)).length)) := by
    have h1 : books.filter (fun b => decide (lowID ≤ b.ID) && decide (b.ID ≤ highID)) =
        (books.filter (pLE highID)).filter (pGE lowID) := by
      rw [List.filter_filter]
      exact rfl
    have h2 : books.filter (pLE highID) = books.take (kOf highID books) := by
      rw [filter_le_eq_takeWhile highID books hs, takeWhile_eq_take_kOf]
    have hst : List.Pairwise (fun a b : BookInfo => a.ID ≤ b.ID)
        (books.take (kOf highID books)) :=
      List.Pairwise.sublist (List.take_sublist _ _) hs
    have h3 := filter_ge_eq_drop lowID (books.take (kOf highID books)) hst
    have h4 : ((books.take (kOf highID books)).takeWhile (fun b => !pGE lowID b)).length
        = min (kOf highID books) ((books.takeWhile (fun b => !pGE lowID b)).length) := by
      rw [← List.take_takeWhile, List.length_take]
    rw [h1, h2, h3, h4]
  have hkle := kOf_le_length highID books
  have hmain : sliceRange lowID highID books =
      books.filter (fun b => decide (lowID ≤ b.ID) && decide (b.ID ≤ highID)) := by
    rw [sliceRange_closed, hfilter, mOf_eq_min, scannedOf_length]
    by_cases hM : (books.takeWhile (fun b => !pGE lowID b)).length < kOf highID books
    · rw [if_pos ⟨by omega, by omega⟩]
      congr 1
      omega
    · rw [if_neg (by omega)]
      have hmin : min (kOf highID books)
          ((books.takeWhile (fun b => !pGE lowID b)).length) = kOf highID books := by
        omega
      rw [hmin]
      exact (List.drop_eq_nil_of_le (by rw [List.length_take]; omega)).symm
  refine ⟨hmain, fun hnone => ?_⟩
  rw [hmain, List.filter_eq_nil_iff]
  intro b hb
  have hnb := hnone b hb
  simp only [Bool.and_eq_true, decide_eq_true_eq]
  tauto

/-- Witness for C2: on a sorted two-book catalog, a range matching no book
(999–999) yields exactly the naive filter, the empty sequence. -/
theorem sliceRange_eq_filter_witness :
    sliceRange 999 999 [⟨10, "Genesis", 1533, "10.txt.gz"⟩, ⟨20, "Exodus", 1213, "20.txt.gz"⟩] =
      ([⟨10, "Genesis", 1533, "10.txt.gz"⟩, ⟨20, "Exodus", 1213, "20.txt.gz"⟩] :
          List BookInfo).filter
        (fun b => decide ((999 : Int) ≤ b.ID) && decide (b.ID ≤ (999 : Int))) :=
  (sliceRange_eq_filter
    [⟨10, "Genesis", 1533, "10.txt.gz"⟩, ⟨20, "Exodus", 1213, "20.txt.gz"⟩]
    (by decide) 999 999).1

/-- A category slice is always a contiguous (infix) run of the catalog,
whatever the bounds and the catalog. -/
theorem sliceRange_isInfix (lowID highID : Int) (books : List BookInfo) :
    (sliceRange lowID highID books).IsInfix books := by
  rw [sliceRange_closed]
  by_cases h : mOf lowID highID books < (scannedOf highID books).length ∧
      mOf lowID highID books + 1 ≤ kOf highID books
  · rw [if_pos h]
    exact ((List.drop_suffix _ _).isInfix).trans ((List.take_prefix _ _).isInfix)
  · rw [if_neg h]
    exact List.nil_infix

/-- **C7 counterexample.** Load neither sorts nor validates order: an index
whose well-formed records are out of order produces a catalog whose IDs are
not ascending, so the invariant does not hold for every index input. -/
theorem loadBooks_unsorted_counterexample :
    ¬ List.Pairwise (fun a b : Int => a ≤ b)
        ((loadBooks ["20|B|5", "10|A|3"]).map BookInfo.ID) := by decide

/-- **C7 amended.** Load preserves the input order of well-formed records,
so the catalog's IDs are ascending exactly when the input's well-formed
records are ascending by id (the export pipeline's `ORDER BY book_number`
provides this for the shipped index); and every category range resolves to
a contiguous (infix) slice of the book sequence. -/
theorem loadBooks_sorted_of_input_sorted (lines : List String)
    (h : List.Pairwise (fun a b : Int => a ≤ b)
      ((lines.filterMap parseIndexLine).map BookInfo.ID)) :
    List.Pairwise (fun a b : Int => a ≤ b) ((loadBooks lines).map BookInfo.ID) ∧
    ∀ lowID highID : Int,
      (sliceRange lowID highID (loadBooks lines)).IsInfix (loadBooks lines) := by
  constructor
  · rw [loadBooks_eq_filterMap]
    exact h
  · intro lowID highID
    exact sliceRange_isInfix lowID highID (loadBooks lines)

/-- Witness for C7 amended: a sorted index yields a sorted catalog, and the
Pentateuch-style range slices it contiguously. -/
theorem loadBooks_sorted_of_input_sorted_witness :
    List.Pairwise (fun a b : Int => a ≤ b)
      ((loadBooks ["10|Genesis|1533", "20|Exodus|1213"]).map BookInfo.ID) ∧
    (sliceRange 10 20 (loadBooks ["10|Genesis|1533", "20|Exodus|1213"])).IsInfix
      (loadBooks ["10|Genesis|1533", "20|Exodus|1213"]) :=
  ⟨(loadBooks_sorted_of_input_sorted ["10|Genesis|1533", "20|Exodus|1213"] (by decide)).1,
   (loadBooks_sorted_of_input_sorted ["10|Genesis|1533", "20|Exodus|1213"] (by decide)).2 10 20⟩

/-- **C4 counterexample.** The label derivation branches on
`lowID == highID`, not on the length of the resolved slice: a range with
`lowID < highID` that matches exactly one book gets the label
`"X — X"`, not the single book's name `"X"` the claim requires. -/
theorem catLabelOf_single_counterexample :
    sliceRange 1 10 [⟨5, "X", 3, "5.txt.gz"⟩] = [⟨5, "X", 3, "5.txt.gz"⟩] ∧
    catLabelOf 1 10 [⟨5, "X", 3, "5.txt.gz"⟩] = "X — X" ∧
    catLabelOf 1 10 [⟨5, "X", 3, "5.txt.gz"⟩] ≠ "X" := by decide

/-- **C4 amended.** The derived label is: `""` when the resolved slice is
empty; the first resolved book's name when the bounds are equal
(`lowId = highId`); and `first.name ++ " — " ++ last.name` (exact em-dash
separator) when the bounds differ — even when the slice has one element. -/
theorem catLabelOf_branches (lowID highID : Int) (books : List BookInfo) :
    (sliceRange lowID highID books = [] → catLabelOf lowID highID books = "") ∧
    (∀ b rest, sliceRange lowID highID books = b :: rest → lowID = highID →
      catLabelOf lowID highID books = b.Name) ∧
    (∀ b rest, sliceRange lowID highID books = b :: rest → lowID ≠ highID →
      catLabelOf lowID highID books =
        b.Name ++ " — " ++ ((b :: rest).getLastD zeroBook).Name) := by
  refine ⟨?_, ?_, ?_⟩
  · intro h
    simp [catLabelOf, h]
  · intro b rest h heq
    subst heq
    simp [catLabelOf, h]
  · intro b rest h hne
    simp [catLabelOf, h, hne]

/-- Witness for C4 amended: a one-element slice with unequal bounds gets
the two-name em-dash label. -/
theorem catLabelOf_branches_witness :
    catLabelOf 1 10 [⟨5, "X", 3, "5.txt.gz"⟩] =
      (⟨5, "X", 3, "5.txt.gz"⟩ : BookInfo).Name ++ " — " ++
        (([(⟨5, "X", 3, "5.txt.gz"⟩ : BookInfo)]).getLastD zeroBook).Name :=
  (catLabelOf_branches 1 10 [⟨5, "X", 3, "5.txt.gz"⟩]).2.2 ⟨5, "X", 3, "5.txt.gz"⟩ []
    (by decide) (by decide)

/-- **C10.** For every pool with non-negative line counts and total ≥ 1 and
every draw choice in [1, total], the book-locating walk terminates by
selecting a book of the pool: the fall-through that would leave the
zero-value book is unreachable (`locateOpt` is `some`, with a pool member). -/
theorem locate_no_fallthrough (pool : List BookInfo)
    (h0 : ∀ b ∈ pool, 0 ≤ b.LineCount) (h1 : 1 ≤ totalLines pool)
    (choice : Int) (hc1 : 1 ≤ choice) (hc2 : choice ≤ totalLines pool) :
    ∃ b k, locateOpt choice pool 0 = some (b, k) ∧ b ∈ pool := by
  rw [totalLines_eq_sum] at hc2
  obtain ⟨b, k, heq, hmem, _, _⟩ := locateOpt_mem choice pool 0 h0 (by omega) (by omega)
  exact ⟨b, k, heq, hmem⟩

/-- Witness for C10: a one-book pool locates that book at choice 1. -/
theorem locate_no_fallthrough_witness :
    ∃ b k, locateOpt 1 [⟨10, "Genesis", 2, "10.txt.gz"⟩] 0 = some (b, k) ∧
      b ∈ [(⟨10, "Genesis", 2, "10.txt.gz"⟩ : BookInfo)] :=
  locate_no_fallthrough [⟨10, "Genesis", 2, "10.txt.gz"⟩]
    (by decide) (by decide) 1 (by decide) (by decide)

/-- **C6.** For every pool with non-negative line counts and every draw
choice in [1, total], the walk selects a book with at least one line — so a
book with `lineCount == 0` is skipped without error and can never be the
selected book. -/
theorem zero_line_book_never_selected (pool : List BookInfo)
    (h0 : ∀ b ∈ pool, 0 ≤ b.LineCount)
    (choice : Int) (hc1 : 1 ≤ choice) (hc2 : choice ≤ totalLines pool) :
    ∃ b k, locateOpt choice pool 0 = some (b, k) ∧ b ∈ pool ∧ 1 ≤ b.LineCount ∧
      ∀ z ∈ pool, z.LineCount = 0 → b ≠ z := by
  rw [totalLines_eq_sum] at hc2
  obtain ⟨b, k, heq, hmem, hk1, hk2⟩ := locateOpt_mem choice pool 0 h0 (by omega) (by omega)
  refine ⟨b, k, heq, hmem, by omega, ?_⟩
  intro z hz hz0 hbz
  rw [hbz] at hk2
  omega

/-- Witness for C6: in a pool whose first book has zero lines, choice 1
selects the second book, never the zero-line one. -/
theorem zero_line_book_never_selected_witness :
    ∃ b k, locateOpt 1 [⟨10, "A", 0, "10.txt.gz"⟩, ⟨20, "B", 2, "20.txt.gz"⟩] 0 = some (b, k) ∧
      b ∈ [(⟨10, "A", 0, "10.txt.gz"⟩ : BookInfo), ⟨20, "B", 2, "20.txt.gz"⟩] ∧
      1 ≤ b.LineCount ∧
      ∀ z ∈ [(⟨10, "A", 0, "10.txt.gz"⟩ : BookInfo), ⟨20, "B", 2, "20.txt.gz"⟩],
        z.LineCount = 0 → b ≠ z :=
  zero_line_book_never_selected [⟨10, "A", 0, "10.txt.gz"⟩, ⟨20, "B", 2, "20.txt.gz"⟩]
    (by decide) 1 (by decide) (by decide)

/-- **C1.** For every pool with non-negative line counts and total ≥ 1, the
selector's mapping from a draw choice in [1, total] to the pair (book
position, local offset) is a bijection onto the valid pairs: (forward)
every choice locates a pair `(j, k)` with `pool[j]` a book of the pool and
`1 ≤ k ≤ lineCount`, and the choice is recovered as `prefix(j) + k`
(injectivity); (inverse) the global index `prefix(j) + k` of every valid
pair lies in [1, total] and locates exactly that pair (surjectivity);
(uniformity) each valid pair is therefore hit by exactly one of the `total`
equally likely choices — probability 1/total per individual line. -/
theorem locateIdx_bijection (pool : List BookInfo)
    (h0 : ∀ b ∈ pool, 0 ≤ b.LineCount) (h1 : 1 ≤ totalLines pool) :
    (∀ choice : Int, 1 ≤ choice → choice ≤ totalLines pool →
      ∃ j b k, pool[j]? = some b ∧ locateIdx choice pool 0 0 = some (j, k) ∧
        1 ≤ k ∧ k ≤ b.LineCount ∧ prefixLines pool j + k = choice) ∧
    (∀ (j : Nat) (b : BookInfo) (k : Int), pool[j]? = some b → 1 ≤ k → k ≤ b.LineCount →
      locateIdx (prefixLines pool j + k) pool 0 0 = some (j, k) ∧
      1 ≤ prefixLines pool j + k ∧ prefixLines pool j + k ≤ totalLines pool) ∧
    (∀ (j : Nat) (b : BookInfo) (k : Int), pool[j]? = some b → 1 ≤ k → k ≤ b.LineCount →
      ((Finset.Icc (1 : Int) (totalLines pool)).filter
        (fun c => locateIdx c pool 0 0 = some (j, k))).card = 1) := by
  refine ⟨?_, ?_, ?_⟩
  · intro choice hc1 hc2
    rw [totalLines_eq_sum] at hc2
    obtain ⟨j, b, k, hj, heq, hk1, hk2, hsum⟩ :=
      locateIdx_mem choice pool 0 0 h0 (by omega) (by omega)
    refine ⟨j, b, k, hj, by simpa using heq, hk1, hk2, by omega⟩
  · intro j b k hj hk1 hk2
    have hb := prefix_add_k_bounds pool j b k h0 hj hk1 hk2
    have hi := locateIdx_inv pool 0 0 j b k h0 hj hk1 hk2
    exact ⟨by simpa using hi, hb.1, hb.2⟩
  · intro j b k hj hk1 hk2
    have hbnd := prefix_add_k_bounds pool j b k h0 hj hk1 hk2
    have hloc := locateIdx_inv pool 0 0 j b k h0 hj hk1 hk2
    have hloc2 : locateIdx (prefixLines pool j + k) pool 0 0 = some (j, k) := by
      simpa using hloc
    have hset : (Finset.Icc (1 : Int) (totalLines pool)).filter
        (fun c => locateIdx c pool 0 0 = some (j, k)) = {prefixLines pool j + k} := by
      apply Finset.ext
      intro c
      simp only [Finset.mem_filter, Finset.mem_Icc, Finset.mem_singleton]
      constructor
      · rintro ⟨⟨hc1, hc2⟩, heq⟩
        rw [totalLines_eq_sum] at hc2
        obtain ⟨j2, b2, k2, hj2, heq2, hk12, hk22, hsum2⟩ :=
          locateIdx_mem c pool 0 0 h0 (by omega) (by omega)
        have heq3 : locateIdx c pool 0 0 = some (j2, k2) := by simpa using heq2
        rw [heq] at heq3
        have hpair : j = j2 ∧ k = k2 := by
          have := Option.some.inj heq3
          simpa [Prod.ext_iff] using this
        rcases hpair with ⟨rfl, rfl⟩
        omega
      · rintro rfl
        exact ⟨⟨hbnd.1, hbnd.2⟩, hloc2⟩
    rw [hset, Finset.card_singleton]

/-- Witness for C1: in the pool [A(2 lines), B(1 line)], the pair
(book 1, offset 1) is located by its global index, which lies in range. -/
theorem locateIdx_bijection_witness :
    locateIdx (prefixLines [⟨1, "A", 2, "1.txt.gz"⟩, ⟨2, "B", 1, "2.txt.gz"⟩] 1 + 1)
        [⟨1, "A", 2, "1.txt.gz"⟩, ⟨2, "B", 1, "2.txt.gz"⟩] 0 0 = some (1, 1) ∧
    1 ≤ prefixLines [⟨1, "A", 2, "1.txt.gz"⟩, ⟨2, "B", 1, "2.txt.gz"⟩] 1 + 1 ∧
    prefixLines [⟨1, "A", 2, "1.txt.gz"⟩, ⟨2, "B", 1, "2.txt.gz"⟩] 1 + 1 ≤
      totalLines [⟨1, "A", 2, "1.txt.gz"⟩, ⟨2, "B", 1, "2.txt.gz"⟩] :=
  (locateIdx_bijection [⟨1, "A", 2, "1.txt.gz"⟩, ⟨2, "B", 1, "2.txt.gz"⟩]
      (by decide) (by decide)).2.1 1 ⟨2, "B", 1, "2.txt.gz"⟩ 1 rfl (by decide) (by decide)

/-- Witness for C3: a one-book pool with three lines yields a selection. -/
theorem select_emptyPool_iff_witness :
    ∃ b off, select [⟨10, "Genesis", 3, "10.txt.gz"⟩] 0 = .ok (b, off) :=
  (select_emptyPool_iff [⟨10, "Genesis", 3, "10.txt.gz"⟩] 0).2 (by decide)

end RandFromKJV
